import Mathlib

/-!
# Verification of the android-script-roi-tool region-extraction core

This file gives a shallow embedding, in Lean, of the region model and the
detection/segmentation/merge operations of the tool
(`src/models/roi.py`, `src/core/auto_detect.py`, `src/core/superpixel_segment.py`),
together with theorems settling the specification claims about them.

Modelling conventions:
* Python `int` is `Int`; Python `float` arithmetic on exact integer inputs
  (the IoU ratio) is modelled with `ℚ`.
* NumPy `uint16` scalar arithmetic (which wraps modulo 2^16) is modelled
  with explicit `% 65536` reductions.
* Results of external OpenCV/scikit-image routines (Hough circles, SLIC label
  rasters, connected-component statistics) are inputs to the embedded
  functions: the embedding covers exactly the repository's own code around
  those calls.
* `cv2.findContours` with `RETR_EXTERNAL` returns one external contour per
  connected component of a binary mask; it is modelled at that level:
  a contour is identified with its (8-connected) pixel component, and
  `cv2.boundingRect` with the componentwise bounding box.
-/

namespace ROITool

/-! ## ROI value type (src/src/models/roi.py, class ROI)

Fields irrelevant to every claim (timestamps, image_path) are omitted;
`roi_id` is kept abstract as a string. -/

structure ROI where
  x : Int := 0
  y : Int := 0
  width : Int := 0
  height : Int := 0
  name : String := ""
  node_name : String := ""
  image_name : String := ""
  roi_type : String := "image"
  action : String := ""
  click_mode : String := "single"
  click_count : Int := 1
  click_interval : Int := 500
  swipe_direction : String := "top_to_bottom"
  swipe_speed : Int := 400
  image_action : String := "detect"
  roi_id : String := ""
  color : String := "#00FF00"
  deriving Repr, DecidableEq

/-- `ROI.center` property: `(x + width // 2, y + height // 2)` (Python floor division). -/
def ROI.center (r : ROI) : Int × Int := (r.x + r.width.fdiv 2, r.y + r.height.fdiv 2)

/-- `ROI.area` property: `width * height`. -/
def ROI.area (r : ROI) : Int := r.width * r.height

/-- `ROI.right` property: `x + width`. -/
def ROI.right (r : ROI) : Int := r.x + r.width

/-- `ROI.bottom` property: `y + height`. -/
def ROI.bottom (r : ROI) : Int := r.y + r.height

/-- `QRect.contains(QPoint)` on `ROI.rect`: the point lies inside the
rectangle `(x, y, width, height)` (Qt's right edge is `x + width - 1`). -/
def ROI.containsPt (r : ROI) (p : Int × Int) : Bool :=
  r.x ≤ p.1 && p.1 < r.x + r.width && r.y ≤ p.2 && p.2 < r.y + r.height

/-! ## RegionMerger (src/src/core/auto_detect.py, `_calculate_iou` and
`_merge_overlapping_rois`) -/

/-- `AutoDetector._calculate_iou`: intersection-over-union of two bboxes.
`x1/y1` are the max of the left/top edges, `x2/y2` the min of the
right/bottom edges; if the intersection is empty the result is `0.0`,
otherwise `intersection / union` guarded by `union > 0`. -/
def calculate_iou (a b : ROI) : ℚ :=
  let x1 := max a.x b.x
  let y1 := max a.y b.y
  let x2 := min a.right b.right
  let y2 := min a.bottom b.bottom
  if x2 ≤ x1 ∨ y2 ≤ y1 then 0
  else
    let intersection := (x2 - x1) * (y2 - y1)
    let union := a.area + b.area - intersection
    if 0 < union then (intersection : ℚ) / (union : ℚ) else 0

/-- One iteration of the greedy loop in `_merge_overlapping_rois`: the
candidate is dropped when its IoU with some already-kept ROI exceeds the
threshold (`should_merge`), and appended otherwise. -/
def merge_step (t : ℚ) (merged : List ROI) (roi : ROI) : List ROI :=
  if merged.any (fun existing => t < calculate_iou roi existing) then merged
  else merged ++ [roi]

/-- The comparison used by `sorted(rois, key=lambda r: r.area, reverse=True)`:
area descending. Python's `sorted` is stable, as is `List.mergeSort`. -/
def areaDesc (a b : ROI) : Bool := b.area ≤ a.area

/-- `AutoDetector._merge_overlapping_rois(rois, iou_threshold)`:
stable-sort by area descending, then greedily keep candidates whose IoU
with every kept ROI stays at or below the threshold. (The early
`if not rois: return []` coincides with folding over the empty list.) -/
def merge_overlapping_rois (rois : List ROI) (iou_threshold : ℚ) : List ROI :=
  (rois.mergeSort areaDesc).foldl (merge_step iou_threshold) []

/-- The spec's wording of the merge ("stable-sort candidates by bbox area
descending (ties keep original order); greedily keep a candidate unless its
IoU with any already-kept region exceeds the threshold"), to be compared
with `merge_overlapping_rois`: a candidate is kept iff its IoU with every
already-kept region does not exceed the threshold. -/
def merge_spec (rois : List ROI) (iou_threshold : ℚ) : List ROI :=
  (rois.mergeSort areaDesc).foldl
    (fun merged roi =>
      if merged.all (fun existing => calculate_iou roi existing ≤ iou_threshold)
      then merged ++ [roi] else merged) []

/-- The code's test for an empty bbox intersection: the two boxes do not
overlap (`x2 <= x1 or y2 <= y1` in `_calculate_iou`). -/
def boxesDisjoint (a b : ROI) : Prop :=
  min a.right b.right ≤ max a.x b.x ∨ min a.bottom b.bottom ≤ max a.y b.y

instance (a b : ROI) : Decidable (boxesDisjoint a b) := by
  unfold boxesDisjoint; infer_instance

/-! ## Pixmap front end (src/src/core/auto_detect.py, `_qpixmap_to_cv2`)

A `QPixmap` is modelled by its nullness flag and dimensions; the pixel
data itself is only ever handed to external OpenCV routines, whose
results enter the embedded functions as inputs. -/

structure Pixmap where
  isNull : Bool
  width : Int
  height : Int

/-- Detector-level failure values of the spec's error taxonomy (§7). -/
inductive DetectErr where
  | inputError
  deriving Repr, DecidableEq

/-- `_qpixmap_to_cv2`: returns `None` on a null pixmap, otherwise the
converted buffer (whose contents are irrelevant here). -/
def qpixmap_to_cv2 (p : Pixmap) : Option Unit :=
  if p.isNull then none else some ()

/-! ## GeometricDetector.detect_circles (src/src/core/auto_detect.py)

`cv2.HoughCircles` output rows are converted with `np.uint16(np.around(...))`,
so `center_x`, `center_y`, `radius` are NumPy `uint16` scalars and the
bbox arithmetic `center_x - radius - 2`, `pixmap.width() - x`,
`radius * 2 + 4` wraps modulo 2^16 (NumPy value-based casting keeps
`uint16` when the Python-int operand fits). -/

/-- Reduction of NumPy `uint16` scalar arithmetic to its representative in
`[0, 65536)`. -/
def u16 (n : Int) : Int := n % 65536

/-- One Hough circle hit, already rounded to `uint16`: center and radius. -/
structure Circle where
  cx : Int
  cy : Int
  radius : Int
  deriving Repr, DecidableEq

/-- The per-hit bbox construction in `detect_circles`:
`x = max(0, center_x - radius - 2)`, `w = min(pixmap.width() - x, radius*2 + 4)`
(and likewise for `y`, `h`), all in wrapping `uint16` arithmetic. -/
def circle_to_roi (W H : Int) (c : Circle) : ROI :=
  let x := max 0 (u16 (c.cx - c.radius - 2))
  let y := max 0 (u16 (c.cy - c.radius - 2))
  let w := min (u16 (W - x)) (u16 (c.radius * 2 + 4))
  let h := min (u16 (H - y)) (u16 (c.radius * 2 + 4))
  { x := x, y := y, width := w, height := h }

/-- `AutoDetector.detect_circles`: a null pixmap short-circuits to an empty
list; otherwise every Hough hit (`circles`, the external transform's output)
is mapped to a square bbox ROI. The result type records that the Python
function could raise but never does on this path. -/
def detect_circles (p : Pixmap) (circles : List Circle) :
    Except DetectErr (List ROI) :=
  match qpixmap_to_cv2 p with
  | none => .ok []
  | some _ => .ok (circles.map (circle_to_roi p.width p.height))

/-- An integer bbox, `(x, y, w, h)`. -/
structure Box where
  x : Int
  y : Int
  w : Int
  h : Int
  deriving Repr, DecidableEq

/-- `outer` contains `inner` (the four inequalities of claims C6/C7). -/
def Box.containsBox (outer inner : Box) : Prop :=
  outer.x ≤ inner.x ∧ outer.y ≤ inner.y ∧
  inner.x + inner.w ≤ outer.x + outer.w ∧ inner.y + inner.h ≤ outer.y + outer.h

instance (a b : Box) : Decidable (a.containsBox b) := by
  unfold Box.containsBox; infer_instance

/-! ## ColorFloodSegmenter, `merge_all=True` branch of
`AutoDetector.detect_at_point` (src/src/core/auto_detect.py)

`cv2.connectedComponentsWithStats` is external; its non-background rows
`stats[1:]` (left, top, width, height, pixel area) are the input. -/

/-- One non-background row of the `stats` array. -/
structure CCStat where
  x : Int
  y : Int
  w : Int
  h : Int
  area : Int
  deriving Repr, DecidableEq

/-- The loop state of the `merge_all` branch:
`all_x1, all_y1, all_x2, all_y2, total_area, valid_count`. -/
structure MergeAcc where
  x1 : Int
  y1 : Int
  x2 : Int
  y2 : Int
  total : Int
  cnt : Nat
  deriving Repr, DecidableEq

/-- One iteration of the `merge_all` loop: components of area `< 20` are
skipped, the rest extend the running bbox union and the running totals. -/
def merge_acc_step (acc : MergeAcc) (s : CCStat) : MergeAcc :=
  if s.area < 20 then acc
  else ⟨min acc.x1 s.x, min acc.y1 s.y, max acc.x2 (s.x + s.w),
        max acc.y2 (s.y + s.h), acc.total + s.area, acc.cnt + 1⟩

/-- The `merge_all=True` branch of `detect_at_point`, as a function of the
image size and the non-background component stats. `stats = []` is the
`num_labels < 2` early return; `valid_count == 0` also yields `None`;
otherwise the ROI is built from the accumulated extremes (note the computed
`total_area` is dropped: the returned ROI keeps only the bbox). -/
def detect_at_point_merge_all (W H : Int) (stats : List CCStat) : Option ROI :=
  if stats.isEmpty then none
  else
    let acc := stats.foldl merge_acc_step ⟨W, H, 0, 0, 0, 0⟩
    if acc.cnt = 0 then none
    else some { x := acc.x1, y := acc.y1, width := acc.x2 - acc.x1,
                height := acc.y2 - acc.y1, name := "color_merged" }

/-- The components that survive the `area < 20` filter. -/
def qualifying (stats : List CCStat) : List CCStat :=
  stats.filter (fun s => decide (20 ≤ s.area))

/-- The bounding box `(left, top, width, height)` of one component row. -/
def statBox (s : CCStat) : Box := ⟨s.x, s.y, s.w, s.h⟩

/-- The geometry `cv2.connectedComponentsWithStats` guarantees for every
non-background component of a `W × H` image: a non-degenerate box inside
the image. -/
def inImage (W H : Int) (s : CCStat) : Prop :=
  0 ≤ s.x ∧ 0 ≤ s.y ∧ 1 ≤ s.w ∧ 1 ≤ s.h ∧ s.x + s.w ≤ W ∧ s.y + s.h ≤ H

instance (W H : Int) (s : CCStat) : Decidable (inImage W H s) := by
  unfold inImage; infer_instance

/-- `merge_acc_step` restricted to the components it does not skip. -/
def qstep (acc : MergeAcc) (s : CCStat) : MergeAcc :=
  ⟨min acc.x1 s.x, min acc.y1 s.y, max acc.x2 (s.x + s.w),
   max acc.y2 (s.y + s.h), acc.total + s.area, acc.cnt + 1⟩

/-! ## Export serialization, `ROI.to_dict` (src/src/models/roi.py) -/

/-- Values appearing in the serialized record. -/
inductive JVal where
  | int (n : Int)
  | str (v : String)
  | pair (a b : Int)
  deriving Repr, DecidableEq

/-- `ROI.to_dict`: base fields for every ROI, then the type-specific
fields: `image_name`/`image_action` when `roi_type == "image"`, otherwise
`action` plus the click fields for `action == "click"` or the swipe fields
for `action == "swipe"` (insertion order of the Python dict). -/
def to_dict (r : ROI) : List (String × JVal) :=
  [("id", .str r.roi_id), ("name", .str r.name), ("node_name", .str r.node_name),
   ("roi_type", .str r.roi_type), ("x", .int r.x), ("y", .int r.y),
   ("width", .int r.width), ("height", .int r.height),
   ("center", .pair r.center.1 r.center.2)]
  ++ (if r.roi_type = "image" then
        [("image_name", .str r.image_name), ("image_action", .str r.image_action)]
      else
        ("action", .str r.action) ::
        (if r.action = "click" then
          [("click_mode", .str r.click_mode), ("click_count", .int r.click_count),
           ("click_interval", .int r.click_interval)]
         else if r.action = "swipe" then
          [("swipe_direction", .str r.swipe_direction), ("swipe_speed", .int r.swipe_speed)]
         else []))

/-- The field-name schema the claim asserts for `to_dict` (spec §6),
including its `click_interval_ms` and `swipe_speed_px_s` field names. -/
def claimed_schema_keys (rt act : String) : List String :=
  ["id", "name", "node_name", "roi_type", "x", "y", "width", "height", "center"]
  ++ (if rt = "image" then ["image_name", "image_action"]
      else "action" ::
        (if act = "click" then ["click_mode", "click_count", "click_interval_ms"]
         else if act = "swipe" then ["swipe_direction", "swipe_speed_px_s"]
         else []))

/-- The field-name schema the code actually produces: as claimed, except
that the interval field is `click_interval` and the speed field is
`swipe_speed`. -/
def actual_schema_keys (rt act : String) : List String :=
  ["id", "name", "node_name", "roi_type", "x", "y", "width", "height", "center"]
  ++ (if rt = "image" then ["image_name", "image_action"]
      else "action" ::
        (if act = "click" then ["click_mode", "click_count", "click_interval"]
         else if act = "swipe" then ["swipe_direction", "swipe_speed"]
         else []))

/-! ## SuperpixelEngine label raster (src/src/core/superpixel_segment.py,
`SuperpixelSegmenter._extract_regions`)

The SLIC backends are external; their output, the label raster, is the
input here, as a list of `h` rows of `w` `Int` labels each. -/

/-- The label of pixel `(row i, column j)`; out-of-raster reads (never
used within bounds) default to `-1`. -/
def label_at (labels : List (List Int)) (i j : Nat) : Int :=
  ((labels[i]?.getD [])[j]?.getD (-1))

/-- The pixel count of the mask `labels == l` built in `_extract_regions`. -/
def mask_count (labels : List (List Int)) (l : Int) : Nat :=
  labels.flatten.count l

/-- `np.unique(labels)`: the distinct label values in ascending order. -/
def unique_labels (labels : List (List Int)) : List Int :=
  (labels.flatten.dedup).mergeSort (fun a b => decide (a ≤ b))

/-- The labels of the regions `_extract_regions` returns: negative labels
are skipped, as are labels whose mask yields no contours (a mask with at
least one pixel always yields an external contour, so that filter is
`0 < mask_count`); the surviving regions are sorted by area descending.
The per-region `area` is `cv2.contourArea` of the mask's largest external
contour, an external quantity, abstracted as the sort key `areaKey`. -/
def extract_region_labels (labels : List (List Int)) (areaKey : Int → Int) :
    List Int :=
  ((unique_labels labels).filter
      (fun l => decide (0 ≤ l) && decide (0 < mask_count labels l))).mergeSort
    (fun a b => decide (areaKey b ≤ areaKey a))

/-! ## SuperpixelSegmenter.merge_regions (src/src/core/superpixel_segment.py)

Masks are modelled as finite pixel sets; `cv2.findContours`/`RETR_EXTERNAL`
yields one external contour per 8-connected component of the mask, so a
contour is identified with its component and `cv2.boundingRect` with the
component's bounding box. `cv2.contourArea` (the key of
`max(contours, key=cv2.contourArea)`) is modelled by the component's pixel
count; the theorems below use the selection only where the components list
is a singleton or where one component is strictly larger under both
measures. -/

abbrev Pixel := Int × Int

/-- 8-connectivity of two raster pixels. -/
def adj (p q : Pixel) : Bool :=
  decide (p ≠ q) && decide ((p.1 - q.1).natAbs ≤ 1) && decide ((p.2 - q.2).natAbs ≤ 1)

/-- Lexicographic comparison on pixels, used only to list a component's
pixels in a canonical order. -/
def pixLe (p q : Pixel) : Bool :=
  decide (p.1 < q.1) || (decide (p.1 = q.1) && decide (p.2 ≤ q.2))

/-- Insertion step of the canonical ordering. -/
def insertSorted (p : Pixel) : List Pixel → List Pixel
  | [] => [p]
  | q :: rest => if pixLe p q then p :: q :: rest else q :: insertSorted p rest

/-- Canonical (insertion-sorted) enumeration of a pixel set. -/
def sortPix (l : List Pixel) : List Pixel := l.foldr insertSorted []

/-- One step of connected-component growth inside `mask`: add every mask
pixel adjacent to the current set. -/
def grow (mask s : List Pixel) : List Pixel :=
  (s ++ mask.filter (fun q => s.any (fun p => adj p q))).dedup

/-- The 8-connected component of `mask` containing `p` (for `p ∈ mask`):
growth saturates after at most `mask.length` steps; the result is listed
canonically so that equal components are equal lists. -/
def component (mask : List Pixel) (p : Pixel) : List Pixel :=
  sortPix ((grow mask)^[mask.length] [p])

/-- `cv2.findContours(mask, RETR_EXTERNAL, ...)` at component level: the
distinct 8-connected components of the mask, one per member pixel, deduplicated. -/
def find_contours (mask : List Pixel) : List (List Pixel) :=
  (mask.map (component mask)).dedup

/-- `cv2.boundingRect` of a pixel set: minimal enclosing
`(x, y, w, h)` with `w = max x - min x + 1` (empty input never occurs in
the modelled paths; it is mapped to the zero box). -/
def boundingRect : List Pixel → Box
  | [] => ⟨0, 0, 0, 0⟩
  | p :: rest =>
    let x1 := rest.foldl (fun m q => min m q.1) p.1
    let y1 := rest.foldl (fun m q => min m q.2) p.2
    let x2 := rest.foldl (fun m q => max m q.1) p.1
    let y2 := rest.foldl (fun m q => max m q.2) p.2
    ⟨x1, y1, x2 - x1 + 1, y2 - y1 + 1⟩

/-- A `SuperpixelRegion` as far as `merge_regions` consumes it: its label,
binary mask (the set of raster pixels it covers) and bbox. -/
structure SPRegion where
  label : Int
  mask : List Pixel
  bbox : Box
  deriving Repr, DecidableEq

/-- Python's `max(l, key=f)`: the first element attaining the maximal key
(`none` on an empty list). -/
def list_max_by (f : List Pixel → Nat) (l : List (List Pixel)) :
    Option (List Pixel) :=
  l.foldl (fun acc c =>
    match acc with
    | none => some c
    | some b => if f b < f c then some c else acc) none

/-- The union of the member masks (`cv2.bitwise_or` over the list). -/
def merged_mask (regions : List SPRegion) : List Pixel :=
  regions.foldl (fun m r => m ++ r.mask) []

/-- `SuperpixelSegmenter.merge_regions`: empty input gives `None`; a
single region keeps its own bbox (and contour); otherwise the masks are
OR-ed, the largest external contour of the union is taken
(`max(contours, key=cv2.contourArea)`, the contour's area modelled by its
component's pixel count) and its bounding rect becomes the merged ROI. -/
def merge_regions (regions : List SPRegion) : Option ROI :=
  match regions with
  | [] => none
  | [r] => some { x := r.bbox.x, y := r.bbox.y, width := r.bbox.w, height := r.bbox.h }
  | _ :: _ :: _ =>
    match list_max_by List.length (find_contours (merged_mask regions)) with
    | none => none
    | some best =>
      let b := boundingRect best
      some { x := b.x, y := b.y, width := b.w, height := b.h,
             name := "superpixel_merge_" ++ toString regions.length }

/-- The bbox `(x, y, width, height)` of an `ROI`. -/
def roiBox (r : ROI) : Box := ⟨r.x, r.y, r.width, r.height⟩

/-! ## ROICollection (src/src/models/roi.py, class ROICollection) -/

/-- `ROI.copy`: a fresh ROI with the same bbox, the name suffixed with
`_copy`, and the same color (the fresh random `roi_id` is left at its
default). -/
def ROI.copy (r : ROI) : ROI :=
  { x := r.x, y := r.y, width := r.width, height := r.height,
    name := r.name ++ "_copy", color := r.color }

/-- `ROI.translate(dx, dy)`. -/
def ROI.translate (r : ROI) (dx dy : Int) : ROI :=
  { r with x := r.x + dx, y := r.y + dy }

structure ROICollection where
  rois : List ROI := []
  selected_index : Int := -1
  name_counter : Nat := 0

/-- `ROICollection.add`: autoname unnamed ROIs from the counter, append,
return the new index. -/
def ROICollection.add (c : ROICollection) (roi : ROI) : ROICollection × Nat :=
  if roi.name = "" then
    ({ c with
        rois := c.rois ++ [{ roi with name := "ROI_" ++ toString (c.name_counter + 1) }],
        name_counter := c.name_counter + 1 }, c.rois.length)
  else
    ({ c with rois := c.rois ++ [roi] }, c.rois.length)

/-- `ROICollection.remove(index)`: delete in range, fix up the selection
(same index deselects, larger indices shift down). -/
def ROICollection.remove (c : ROICollection) (index : Int) : ROICollection × Bool :=
  if 0 ≤ index ∧ index < c.rois.length then
    ({ c with
        rois := c.rois.eraseIdx index.toNat,
        selected_index :=
          if c.selected_index = index then -1
          else if index < c.selected_index then c.selected_index - 1
          else c.selected_index }, true)
  else (c, false)

/-- `ROICollection.select(index)`: in-range indices are selected, anything
else resets the selection to `-1`. -/
def ROICollection.select (c : ROICollection) (index : Int) : ROICollection :=
  if 0 ≤ index ∧ index < c.rois.length then { c with selected_index := index }
  else { c with selected_index := -1 }

/-- `ROICollection.select_by_point(point)`: the first ROI containing the
point is selected; otherwise the selection is reset to `-1`. -/
def ROICollection.select_by_point (c : ROICollection) (p : Int × Int) :
    ROICollection × Int :=
  match c.rois.findIdx? (fun r => r.containsPt p) with
  | some i => ({ c with selected_index := (i : Int) }, (i : Int))
  | none => ({ c with selected_index := -1 }, -1)

/-- `ROICollection.get(index)`. -/
def ROICollection.get (c : ROICollection) (index : Int) : Option ROI :=
  if 0 ≤ index ∧ index < c.rois.length then c.rois[index.toNat]? else none

/-- `ROICollection.get_selected()`. -/
def ROICollection.get_selected (c : ROICollection) : Option ROI :=
  c.get c.selected_index

/-- `ROICollection.copy_selected()`: copy the selected ROI, offset it by
`(20, 20)`, add it, and select the appended copy. -/
def ROICollection.copy_selected (c : ROICollection) : ROICollection × Option ROI :=
  match c.get_selected with
  | none => (c, none)
  | some roi =>
    let new_roi := (roi.copy).translate 20 20
    let c' := (c.add new_roi).1
    ({ c' with selected_index := (c'.rois.length : Int) - 1 }, some new_roi)

/-- `ROICollection.clear()`. -/
def ROICollection.clear (_c : ROICollection) : ROICollection :=
  { rois := [], selected_index := -1, name_counter := 0 }

/-- The selection invariant of claim C10: `selected_index` is `-1` or a
valid index. -/
def selInv (c : ROICollection) : Prop :=
  c.selected_index = -1 ∨
    (0 ≤ c.selected_index ∧ c.selected_index < c.rois.length)

instance (c : ROICollection) : Decidable (selInv c) := by
  unfold selInv; infer_instance

/-! # Theorems -/

/-! ## RegionMerger: C1, C3, C4 -/

/-- The code's greedy step (drop when `any` kept IoU exceeds `t`) equals
the spec's greedy step (keep iff `all` kept IoUs are at most `t`). -/
theorem merge_step_eq_spec_step (t : ℚ) (merged : List ROI) (roi : ROI) :
    merge_step t merged roi =
      (if merged.all (fun existing => calculate_iou roi existing ≤ t)
       then merged ++ [roi] else merged) := by
  simp only [merge_step]
  by_cases h : ∀ e ∈ merged, calculate_iou roi e ≤ t
  · rw [if_neg, if_pos (by simpa using h)]
    simp only [List.any_eq_true, decide_eq_true_eq, not_exists, not_and, not_lt]
    exact h
  · rw [if_pos, if_neg (by simpa using h)]
    push_neg at h
    obtain ⟨e, he, hlt⟩ := h
    simp only [List.any_eq_true, decide_eq_true_eq]
    exact ⟨e, he, hlt⟩

/-- C1: for every list of regions (each with positive width and height) and
every IoU threshold, `_merge_overlapping_rois` equals the spec's recipe:
stable-sort by bbox area descending (Python's `sorted` and
`List.mergeSort` are both stable, ties keeping input order), then greedily
keep a candidate iff its IoU with every already-kept region does not
exceed the threshold. Both sides are pure functions of the input list, so
the output is a deterministic function of the input order. -/
theorem merge_overlapping_rois_matches_spec (rois : List ROI) (t : ℚ)
    (hpos : ∀ r ∈ rois, 0 < r.width ∧ 0 < r.height) :
    merge_overlapping_rois rois t = merge_spec rois t := by
  unfold merge_overlapping_rois merge_spec
  have hstep : merge_step t = fun merged roi =>
      if merged.all (fun existing => calculate_iou roi existing ≤ t)
      then merged ++ [roi] else merged :=
    funext fun merged => funext fun roi => merge_step_eq_spec_step t merged roi
  rw [hstep]

/-- Witness for C1 at a concrete one-region input. -/
theorem merge_overlapping_rois_matches_spec_witness :
    (∀ r ∈ [({ x := 0, y := 0, width := 2, height := 2 } : ROI)],
        0 < r.width ∧ 0 < r.height) ∧
    merge_overlapping_rois [{ x := 0, y := 0, width := 2, height := 2 }] (3/10) =
      merge_spec [{ x := 0, y := 0, width := 2, height := 2 }] (3/10) :=
  ⟨by decide, merge_overlapping_rois_matches_spec _ _ (by decide)⟩

/-- IoU is symmetric. -/
theorem calculate_iou_comm (a b : ROI) : calculate_iou a b = calculate_iou b a := by
  simp only [calculate_iou]
  rw [max_comm b.x a.x, max_comm b.y a.y, min_comm b.right a.right,
    min_comm b.bottom a.bottom, add_comm b.area a.area]

/-- IoU is nonnegative. -/
theorem calculate_iou_nonneg (a b : ROI) : 0 ≤ calculate_iou a b := by
  simp only [calculate_iou]
  split
  · exact le_refl 0
  · rename_i hno
    push_neg at hno
    split
    · rename_i hu
      apply div_nonneg
      · have : (0 : Int) ≤ (min a.right b.right - max a.x b.x) *
            (min a.bottom b.bottom - max a.y b.y) :=
          mul_nonneg (by omega) (by omega)
        exact_mod_cast this
      · exact le_of_lt (by exact_mod_cast hu)
    · exact le_refl 0

/-- IoU is at most one for boxes of positive width and height. -/
theorem calculate_iou_le_one (a b : ROI)
    (haw : 0 < a.width) (hah : 0 < a.height)
    (hbw : 0 < b.width) (hbh : 0 < b.height) : calculate_iou a b ≤ 1 := by
  simp only [calculate_iou]
  split
  · norm_num
  · rename_i hno
    push_neg at hno
    obtain ⟨hx, hy⟩ := hno
    split
    · rename_i hu
      rw [div_le_one (by exact_mod_cast hu)]
      have h1 : min a.right b.right - max a.x b.x ≤ a.width := by
        simp only [ROI.right] at hx ⊢; omega
      have h2 : min a.bottom b.bottom - max a.y b.y ≤ a.height := by
        simp only [ROI.bottom] at hy ⊢; omega
      have h1b : min a.right b.right - max a.x b.x ≤ b.width := by
        simp only [ROI.right] at hx ⊢; omega
      have h2b : min a.bottom b.bottom - max a.y b.y ≤ b.height := by
        simp only [ROI.bottom] at hy ⊢; omega
      have h3 : 0 < min a.right b.right - max a.x b.x := by omega
      have h4 : 0 < min a.bottom b.bottom - max a.y b.y := by omega
      have hia : (min a.right b.right - max a.x b.x) *
          (min a.bottom b.bottom - max a.y b.y) ≤ a.area := by
        calc (min a.right b.right - max a.x b.x) *
              (min a.bottom b.bottom - max a.y b.y)
            ≤ a.width * a.height := mul_le_mul h1 h2 (le_of_lt h4) (by omega)
          _ = a.area := rfl
      have hib : (min a.right b.right - max a.x b.x) *
          (min a.bottom b.bottom - max a.y b.y) ≤ b.area := by
        calc (min a.right b.right - max a.x b.x) *
              (min a.bottom b.bottom - max a.y b.y)
            ≤ b.width * b.height := mul_le_mul h1b h2b (le_of_lt h4) (by omega)
          _ = b.area := rfl
      have : (min a.right b.right - max a.x b.x) *
          (min a.bottom b.bottom - max a.y b.y) ≤
          a.area + b.area - (min a.right b.right - max a.x b.x) *
            (min a.bottom b.bottom - max a.y b.y) := by linarith
      exact_mod_cast this
    · norm_num

/-- IoU of a positive box with itself is one. -/
theorem calculate_iou_self (a : ROI) (hw : 0 < a.width) (hh : 0 < a.height) :
    calculate_iou a a = 1 := by
  simp only [calculate_iou, max_self, min_self]
  rw [if_neg (by simp only [ROI.right, ROI.bottom]; omega)]
  have hi : (a.right - a.x) * (a.bottom - a.y) = a.area := by
    simp only [ROI.right, ROI.bottom, ROI.area]; ring
  rw [hi]
  have hpos : (0 : Int) < a.area := mul_pos hw hh
  rw [if_pos (by omega), show a.area + a.area - a.area = a.area by ring]
  exact div_self (by exact_mod_cast ne_of_gt hpos)

/-- Non-overlapping boxes have IoU zero. -/
theorem calculate_iou_of_disjoint (a b : ROI) (h : boxesDisjoint a b) :
    calculate_iou a b = 0 := by
  simp only [calculate_iou]
  exact if_pos h

/-- C3: symmetry, range `[0, 1]`, self-IoU one, and zero on disjoint boxes,
for regions of positive width and height. -/
theorem calculate_iou_properties (a b : ROI)
    (ha : 0 < a.width ∧ 0 < a.height) (hb : 0 < b.width ∧ 0 < b.height) :
    calculate_iou a b = calculate_iou b a ∧
    0 ≤ calculate_iou a b ∧ calculate_iou a b ≤ 1 ∧
    calculate_iou a a = 1 ∧
    (boxesDisjoint a b → calculate_iou a b = 0) :=
  ⟨calculate_iou_comm a b, calculate_iou_nonneg a b,
   calculate_iou_le_one a b ha.1 ha.2 hb.1 hb.2,
   calculate_iou_self a ha.1 ha.2,
   calculate_iou_of_disjoint a b⟩

/-- Witness for C3 at two concrete overlapping boxes. -/
theorem calculate_iou_properties_witness :
    ((0:Int) < 2 ∧ (0:Int) < 2) ∧
      (calculate_iou { x := 0, y := 0, width := 2, height := 2 }
          { x := 1, y := 0, width := 2, height := 2 } =
        calculate_iou { x := 1, y := 0, width := 2, height := 2 }
          { x := 0, y := 0, width := 2, height := 2 } ∧
      0 ≤ calculate_iou { x := 0, y := 0, width := 2, height := 2 }
          { x := 1, y := 0, width := 2, height := 2 } ∧
      calculate_iou { x := 0, y := 0, width := 2, height := 2 }
          { x := 1, y := 0, width := 2, height := 2 } ≤ 1 ∧
      calculate_iou { x := 0, y := 0, width := 2, height := 2 }
          { x := 0, y := 0, width := 2, height := 2 } = 1 ∧
      (boxesDisjoint { x := 0, y := 0, width := 2, height := 2 }
          { x := 1, y := 0, width := 2, height := 2 } →
        calculate_iou { x := 0, y := 0, width := 2, height := 2 }
          { x := 1, y := 0, width := 2, height := 2 } = 0)) :=
  ⟨by decide, calculate_iou_properties _ _ ⟨by decide, by decide⟩ ⟨by decide, by decide⟩⟩

/-- The greedy fold only ever appends: its output is the accumulator
followed by a sublist of the processed candidates. -/
theorem foldl_merge_step_sublist (t : ℚ) (l : List ROI) :
    ∀ acc, ∃ l', List.Sublist l' l ∧ List.foldl (merge_step t) acc l = acc ++ l' := by
  induction l with
  | nil => exact fun acc => ⟨[], List.nil_sublist _, by simp⟩
  | cons r rs ih =>
    intro acc
    simp only [List.foldl_cons]
    cases hb : (acc.any fun e => decide (t < calculate_iou r e)) with
    | false =>
      have hstep : merge_step t acc r = acc ++ [r] := by simp [merge_step, hb]
      obtain ⟨l', hs, he⟩ := ih (acc ++ [r])
      exact ⟨r :: l', List.Sublist.cons₂ _ hs, by rw [hstep, he]; simp⟩
    | true =>
      have hstep : merge_step t acc r = acc := by simp [merge_step, hb]
      obtain ⟨l', hs, he⟩ := ih acc
      exact ⟨l', List.Sublist.cons _ hs, by rw [hstep, he]⟩

/-- Every ROI the greedy fold keeps has IoU at most `t` with every ROI
kept before it. -/
theorem foldl_merge_step_pairwise (t : ℚ) (l : List ROI) :
    ∀ acc, acc.Pairwise (fun a b => calculate_iou b a ≤ t) →
      (List.foldl (merge_step t) acc l).Pairwise (fun a b => calculate_iou b a ≤ t) := by
  induction l with
  | nil => intro acc h; simpa using h
  | cons r rs ih =>
    intro acc hacc
    simp only [List.foldl_cons]
    cases hb : (acc.any fun e => decide (t < calculate_iou r e)) with
    | false =>
      have hstep : merge_step t acc r = acc ++ [r] := by simp [merge_step, hb]
      rw [hstep]
      apply ih
      rw [List.pairwise_append]
      refine ⟨hacc, List.pairwise_singleton _ _, ?_⟩
      intro a ha c hcm
      rw [List.mem_singleton] at hcm
      subst hcm
      have := List.any_eq_false.mp hb a ha
      simpa [not_lt] using this
    | true =>
      have hstep : merge_step t acc r = acc := by simp [merge_step, hb]
      rw [hstep]
      exact ih acc hacc

/-- If every candidate is compatible with the accumulator and the
candidates are pairwise compatible (later with earlier), the greedy fold
keeps everything. -/
theorem foldl_merge_step_all_kept (t : ℚ) (l : List ROI) :
    ∀ acc, (∀ r ∈ l, ∀ e ∈ acc, calculate_iou r e ≤ t) →
      l.Pairwise (fun a b => calculate_iou b a ≤ t) →
      List.foldl (merge_step t) acc l = acc ++ l := by
  induction l with
  | nil => intro acc _ _; simp
  | cons r rs ih =>
    intro acc hcompat hpw
    simp only [List.foldl_cons]
    have hany : (acc.any fun e => decide (t < calculate_iou r e)) = false := by
      rw [List.any_eq_false]
      intro e he
      simpa [not_lt] using hcompat r (List.mem_cons_self r rs) e he
    have hstep : merge_step t acc r = acc ++ [r] := by simp [merge_step, hany]
    rw [hstep, ih (acc ++ [r]) ?_ (List.pairwise_cons.mp hpw).2]
    · simp
    · intro r' hr' e he
      rcases List.mem_append.mp he with h | h
      · exact hcompat r' (List.mem_cons_of_mem _ hr') e h
      · rw [List.mem_singleton] at h
        subst h
        exact (List.pairwise_cons.mp hpw).1 r' hr'

/-- `areaDesc` is transitive. -/
theorem areaDesc_trans : ∀ (a b c : ROI), areaDesc a b → areaDesc b c → areaDesc a c := by
  intro a b c hab hbc
  simp only [areaDesc, decide_eq_true_eq] at *
  exact le_trans hbc hab

/-- `areaDesc` is total. -/
theorem areaDesc_total : ∀ (a b : ROI), areaDesc a b || areaDesc b a := by
  intro a b
  simp only [areaDesc, Bool.or_eq_true, decide_eq_true_eq]
  exact le_total b.area a.area

/-- C4: `_merge_overlapping_rois` is idempotent — re-merging its output at
the same threshold returns the same list, elementwise in the same order. -/
theorem merge_overlapping_rois_idempotent (rois : List ROI) (t : ℚ) :
    merge_overlapping_rois (merge_overlapping_rois rois t) t =
      merge_overlapping_rois rois t := by
  obtain ⟨l', hsub, he⟩ := foldl_merge_step_sublist t (rois.mergeSort areaDesc) []
  have hout : merge_overlapping_rois rois t = l' := by
    unfold merge_overlapping_rois
    rw [he]
    simp
  have hsorted : l'.Pairwise (fun a b => areaDesc a b) :=
    (List.sorted_mergeSort areaDesc_trans areaDesc_total rois).sublist hsub
  have hpw : l'.Pairwise (fun a b => calculate_iou b a ≤ t) := by
    have := foldl_merge_step_pairwise t (rois.mergeSort areaDesc) [] List.Pairwise.nil
    rw [he] at this
    simpa using this
  rw [hout]
  unfold merge_overlapping_rois
  rw [List.mergeSort_of_sorted hsorted]
  have := foldl_merge_step_all_kept t l' []
    (by intro r _ e he'; simp at he') hpw
  simpa using this

/-! ## SuperpixelEngine partition invariant: C2 -/

/-- C2: on an `h × w` label raster in which every pixel carries a
non-negative label (as both SLIC backends guarantee), the regions
extracted by `_extract_regions` have pairwise disjoint masks and their
mask pixel counts sum to `w * h` — every image pixel is covered exactly
once. `areaKey` abstracts the external `cv2.contourArea` sort key. -/
theorem segment_partition (labels : List (List Int)) (areaKey : Int → Int) (w h : ℕ)
    (hh : labels.length = h) (hw : ∀ row ∈ labels, row.length = w)
    (hnn : ∀ v ∈ labels.flatten, 0 ≤ v) :
    ((extract_region_labels labels areaKey).map (mask_count labels)).sum = w * h ∧
    (extract_region_labels labels areaKey).Pairwise
      (fun l₁ l₂ => ∀ i j : ℕ,
        ¬(label_at labels i j = l₁ ∧ label_at labels i j = l₂)) := by
  have hfilter : ((unique_labels labels).filter
      (fun l => decide (0 ≤ l) && decide (0 < mask_count labels l))) =
        unique_labels labels := by
    rw [List.filter_eq_self]
    intro a ha
    have hmem : a ∈ labels.flatten := by
      have h1 : a ∈ labels.flatten.dedup := by
        unfold unique_labels at ha
        exact List.mem_mergeSort.mp ha
      exact List.mem_dedup.mp h1
    simp only [Bool.and_eq_true, decide_eq_true_eq]
    refine ⟨hnn a hmem, ?_⟩
    unfold mask_count
    exact List.count_pos_iff.mpr hmem
  have hperm : (extract_region_labels labels areaKey).Perm labels.flatten.dedup := by
    unfold extract_region_labels
    rw [hfilter]
    unfold unique_labels
    exact (List.mergeSort_perm _ _).trans (List.mergeSort_perm _ _)
  constructor
  · have h1 : ((extract_region_labels labels areaKey).map (mask_count labels)).sum
        = (labels.flatten.dedup.map (mask_count labels)).sum :=
      (hperm.map (mask_count labels)).sum_eq
    rw [h1]
    have h2 : (labels.flatten.dedup.map (mask_count labels)).sum
        = labels.flatten.length := by
      unfold mask_count
      exact List.sum_map_count_dedup_eq_length labels.flatten
    rw [h2, List.length_flatten]
    have h3 : labels.map List.length = List.replicate h w := by
      rw [List.eq_replicate_iff]
      exact ⟨by simp [hh], fun b hbm => by
        obtain ⟨row, hrow, hb⟩ := List.mem_map.mp hbm
        rw [← hb]; exact hw row hrow⟩
    rw [h3, List.sum_replicate, smul_eq_mul, Nat.mul_comm]
  · have hnd : (extract_region_labels labels areaKey).Nodup :=
      hperm.nodup_iff.mpr (List.nodup_dedup _)
    refine List.Pairwise.imp ?_ hnd
    intro a b hne i j hc
    exact hne (hc.1.symm.trans hc.2)

/-- Witness for C2 on a concrete 2 × 3 raster with labels `0, 1, 2`. -/
theorem segment_partition_witness :
    (([[0, 0, 1], [2, 2, 1]] : List (List Int)).length = 2 ∧
     (∀ row ∈ ([[0, 0, 1], [2, 2, 1]] : List (List Int)), row.length = 3) ∧
     (∀ v ∈ ([[0, 0, 1], [2, 2, 1]] : List (List Int)).flatten, 0 ≤ v)) ∧
    (((extract_region_labels [[0, 0, 1], [2, 2, 1]] id).map
        (mask_count [[0, 0, 1], [2, 2, 1]])).sum = 3 * 2 ∧
     (extract_region_labels [[0, 0, 1], [2, 2, 1]] id).Pairwise
       (fun l₁ l₂ => ∀ i j : ℕ,
         ¬(label_at [[0, 0, 1], [2, 2, 1]] i j = l₁ ∧
           label_at [[0, 0, 1], [2, 2, 1]] i j = l₂))) :=
  ⟨⟨by decide, by decide, by decide⟩,
   segment_partition [[0, 0, 1], [2, 2, 1]] id 3 2 (by decide) (by decide) (by decide)⟩

/-! ## GeometricDetector.detect_circles bounds: C5 -/

/-- C5 (code bug): on a 100×100 image, a Hough hit centered at `(3, 50)`
with radius `10` — the center within `radius + 2` of the left edge — makes
`center_x - radius - 2` wrap around in `uint16` arithmetic, so the
`max(0, ...)` clamp never fires: the returned ROI has `x = 65527` and
`x + width = 65551 > 100`, escaping the image bounds rather than being
clamped into them. -/
theorem detect_circles_unclamped_bbox :
    detect_circles ⟨false, 100, 100⟩ [⟨3, 50, 10⟩] =
      .ok [{ x := 65527, y := 38, width := 24, height := 24 }] ∧
    ¬(∀ r ∈ [({ x := 65527, y := 38, width := 24, height := 24 } : ROI)],
        0 ≤ r.x ∧ 0 ≤ r.y ∧ r.x + r.width ≤ 100 ∧ r.y + r.height ≤ 100 ∧
        0 < r.width ∧ 0 < r.height) :=
  ⟨rfl, by decide⟩

/-! ## Error handling on null buffers: C9 -/

/-- C9 counterexample: invoked on a null pixel buffer, `detect_circles`
returns the ordinary empty result, not an error: the malformed input is
indistinguishable from "nothing found". -/
theorem detect_circles_null_not_error :
    detect_circles ⟨true, 0, 0⟩ [] = .ok [] ∧
    ∀ e : DetectErr, detect_circles ⟨true, 0, 0⟩ [] ≠ .error e :=
  ⟨rfl, fun _ h => Except.noConfusion h⟩

/-- C9 amended: a null/empty buffer makes the detector return the empty
list through the normal path (`_qpixmap_to_cv2` yields `None`, the
detector returns `[]`); no `InputError` or any other error is surfaced. -/
theorem detect_circles_null_returns_empty (p : Pixmap) (circles : List Circle)
    (h : p.isNull = true) :
    detect_circles p circles = .ok [] := by
  simp [detect_circles, qpixmap_to_cv2, h]

/-- Witness for the amended C9 at a concrete null pixmap. -/
theorem detect_circles_null_returns_empty_witness :
    (Pixmap.mk true 0 0).isNull = true ∧
    detect_circles ⟨true, 0, 0⟩ [⟨1, 1, 1⟩] = .ok [] :=
  ⟨rfl, detect_circles_null_returns_empty _ _ rfl⟩

/-! ## Export schema: C8 -/

/-- C8 counterexample: for a region-type click ROI the serialized keys
are `..., click_mode, click_count, click_interval` — the claimed schema
key `click_interval_ms` does not occur (likewise `swipe_speed_px_s` for
swipe ROIs). -/
theorem to_dict_keys_counterexample :
    (to_dict { x := 1, y := 2, width := 3, height := 4, roi_type := "region",
               action := "click" }).map Prod.fst ≠
      claimed_schema_keys "region" "click" ∧
    "click_interval_ms" ∉
      (to_dict { x := 1, y := 2, width := 3, height := 4, roi_type := "region",
                 action := "click" }).map Prod.fst := by
  exact ⟨by decide, by decide⟩

/-- C8 amended: for `roi_type ∈ {image, region}`, `to_dict` produces
exactly the claimed stable schema, except that the click interval field
is named `click_interval` (milliseconds) and the swipe speed field
`swipe_speed` (px/s). -/
theorem to_dict_keys (r : ROI)
    (hrt : r.roi_type = "image" ∨ r.roi_type = "region") :
    (to_dict r).map Prod.fst = actual_schema_keys r.roi_type r.action := by
  unfold to_dict actual_schema_keys
  rcases hrt with h | h
  · simp [h]
  · rw [h]
    have hne : ¬(("region" : String) = "image") := by decide
    by_cases hc : r.action = "click"
    · simp [hne, hc]
    · by_cases hs : r.action = "swipe"
      · simp [hne, hc, hs]
      · simp [hne, hc, hs]

/-- Witness for the amended C8 at a concrete default (image-type) ROI. -/
theorem to_dict_keys_witness :
    (({} : ROI).roi_type = "image" ∨ ({} : ROI).roi_type = "region") ∧
    (to_dict {}).map Prod.fst =
      actual_schema_keys ({} : ROI).roi_type ({} : ROI).action :=
  ⟨Or.inl rfl, to_dict_keys {} (Or.inl rfl)⟩

/-! ## ColorFloodSegmenter merge_all: C7 -/

/-- The `merge_all` loop skips sub-threshold components, so the fold over
all stats equals the unconditional fold over the qualifying ones. -/
theorem merge_acc_foldl_eq (stats : List CCStat) :
    ∀ init, stats.foldl merge_acc_step init = (qualifying stats).foldl qstep init := by
  induction stats with
  | nil => intro _; rfl
  | cons s ss ih =>
    intro init
    by_cases h : s.area < 20
    · have hq : qualifying (s :: ss) = qualifying ss := by
        unfold qualifying
        rw [List.filter_cons_of_neg (by simpa using h)]
      have hstep : merge_acc_step init s = init := if_pos h
      rw [hq, List.foldl_cons, hstep]
      exact ih init
    · have hq : qualifying (s :: ss) = s :: qualifying ss := by
        unfold qualifying
        rw [List.filter_cons_of_pos (by simpa using not_lt.mp h)]
      have hstep : merge_acc_step init s = qstep init s := by
        unfold merge_acc_step qstep
        rw [if_neg h]
      rw [hq, List.foldl_cons, List.foldl_cons, hstep]
      exact ih (qstep init s)

/-- Characterization of the qualifying fold: the count counts the
components, `x1/y1` descend to the least left/top edge, `x2/y2` climb to
the greatest right/bottom edge, and each extreme is either the initial
value or attained by a member. -/
theorem qfold_facts (q : List CCStat) :
    ∀ init : MergeAcc,
      (q.foldl qstep init).cnt = init.cnt + q.length ∧
      (q.foldl qstep init).x1 ≤ init.x1 ∧
      (q.foldl qstep init).y1 ≤ init.y1 ∧
      init.x2 ≤ (q.foldl qstep init).x2 ∧
      init.y2 ≤ (q.foldl qstep init).y2 ∧
      (∀ s ∈ q,
        (q.foldl qstep init).x1 ≤ s.x ∧ (q.foldl qstep init).y1 ≤ s.y ∧
        s.x + s.w ≤ (q.foldl qstep init).x2 ∧ s.y + s.h ≤ (q.foldl qstep init).y2) ∧
      ((q.foldl qstep init).x1 = init.x1 ∨ ∃ s ∈ q, (q.foldl qstep init).x1 = s.x) ∧
      ((q.foldl qstep init).y1 = init.y1 ∨ ∃ s ∈ q, (q.foldl qstep init).y1 = s.y) ∧
      ((q.foldl qstep init).x2 = init.x2 ∨ ∃ s ∈ q, (q.foldl qstep init).x2 = s.x + s.w) ∧
      ((q.foldl qstep init).y2 = init.y2 ∨ ∃ s ∈ q, (q.foldl qstep init).y2 = s.y + s.h) := by
  induction q with
  | nil => intro init; simp
  | cons s ss ih =>
    intro init
    simp only [List.foldl_cons]
    obtain ⟨hc, hx1, hy1, hx2, hy2, hmem, ax1, ay1, ax2, ay2⟩ := ih (qstep init s)
    refine ⟨?_, ?_, ?_, ?_, ?_, ?_, ?_, ?_, ?_, ?_⟩
    · rw [hc]; simp [qstep]; omega
    · exact le_trans hx1 (min_le_left _ _)
    · exact le_trans hy1 (min_le_left _ _)
    · exact le_trans (le_max_left _ _) hx2
    · exact le_trans (le_max_left _ _) hy2
    · intro s' hs'
      rcases List.mem_cons.mp hs' with h | h
      · subst h
        exact ⟨le_trans hx1 (min_le_right _ _), le_trans hy1 (min_le_right _ _),
          le_trans (le_max_right _ _) hx2, le_trans (le_max_right _ _) hy2⟩
      · exact hmem s' h
    · rcases ax1 with h | ⟨s', hs', he⟩
      · rcases min_choice init.x1 s.x with hm | hm
        · exact Or.inl (by rw [h]; exact hm)
        · exact Or.inr ⟨s, List.mem_cons_self _ _, by rw [h]; exact hm⟩
      · exact Or.inr ⟨s', List.mem_cons_of_mem _ hs', he⟩
    · rcases ay1 with h | ⟨s', hs', he⟩
      · rcases min_choice init.y1 s.y with hm | hm
        · exact Or.inl (by rw [h]; exact hm)
        · exact Or.inr ⟨s, List.mem_cons_self _ _, by rw [h]; exact hm⟩
      · exact Or.inr ⟨s', List.mem_cons_of_mem _ hs', he⟩
    · rcases ax2 with h | ⟨s', hs', he⟩
      · rcases max_choice init.x2 (s.x + s.w) with hm | hm
        · exact Or.inl (by rw [h]; exact hm)
        · exact Or.inr ⟨s, List.mem_cons_self _ _, by rw [h]; exact hm⟩
      · exact Or.inr ⟨s', List.mem_cons_of_mem _ hs', he⟩
    · rcases ay2 with h | ⟨s', hs', he⟩
      · rcases max_choice init.y2 (s.y + s.h) with hm | hm
        · exact Or.inl (by rw [h]; exact hm)
        · exact Or.inr ⟨s, List.mem_cons_self _ _, by rw [h]; exact hm⟩
      · exact Or.inr ⟨s', List.mem_cons_of_mem _ hs', he⟩

/-- C7 counterexample: two qualifying components with bboxes `(0,0,1,20)`
and `(50,0,1,20)` and pixel areas 20 each merge to bbox `(0,0,51,20)`;
the returned Region's `area` property is `51*20 = 1020`, not the member
pixel-area sum `40` — `total_area` is computed by the loop but never
stored in the result. -/
theorem merge_all_area_not_member_sum :
    detect_at_point_merge_all 100 100
        [⟨0, 0, 1, 20, 20⟩, ⟨50, 0, 1, 20, 20⟩] =
      some { x := 0, y := 0, width := 51, height := 20, name := "color_merged" } ∧
    ({ x := 0, y := 0, width := 51, height := 20,
       name := "color_merged" } : ROI).area ≠ 20 + 20 :=
  ⟨by decide, by decide⟩

/-- C7 amended: with component stats inside the image,
the `merge_all=True` branch returns `None` iff no non-background component
has area ≥ 20, and otherwise a Region whose bbox is the least box
containing every qualifying component's bbox (the union of their
bounding boxes); its `area` is its bbox area `width*height`, not the sum
of member component areas. -/
theorem detect_at_point_merge_all_spec (W H : Int) (stats : List CCStat)
    (hin : ∀ s ∈ stats, inImage W H s) :
    (detect_at_point_merge_all W H stats = none ↔ ∀ s ∈ stats, s.area < 20) ∧
    (∀ roi, detect_at_point_merge_all W H stats = some roi →
      roi.area = roi.width * roi.height ∧
      (∀ s ∈ qualifying stats, (roiBox roi).containsBox (statBox s)) ∧
      (∀ b : Box, (∀ s ∈ qualifying stats, b.containsBox (statBox s)) →
        b.containsBox (roiBox roi))) := by
  simp only [detect_at_point_merge_all]
  rw [merge_acc_foldl_eq]
  by_cases hemp : stats.isEmpty = true
  · rw [if_pos hemp]
    rw [List.isEmpty_iff] at hemp
    subst hemp
    constructor
    · simp
    · intro roi h
      simp at h
  · rw [if_neg hemp]
    obtain ⟨hc, hx1, hy1, hx2, hy2, hmem, ax1, ay1, ax2, ay2⟩ :=
      qfold_facts (qualifying stats) ⟨W, H, 0, 0, 0, 0⟩
    by_cases hz : ((qualifying stats).foldl qstep ⟨W, H, 0, 0, 0, 0⟩).cnt = 0
    · rw [if_pos hz]
      have hqnil : qualifying stats = [] := by
        rw [hz] at hc
        exact List.length_eq_zero.mp (by omega)
      constructor
      · simp only [true_iff]
        intro s hs
        by_contra hge
        have : s ∈ qualifying stats :=
          List.mem_filter.mpr ⟨hs, by simpa using not_lt.mp hge⟩
        rw [hqnil] at this
        simp at this
      · intro roi h
        simp at h
    · rw [if_neg hz]
      have e1 : (⟨W, H, 0, 0, 0, 0⟩ : MergeAcc).x1 = W := rfl
      have e2 : (⟨W, H, 0, 0, 0, 0⟩ : MergeAcc).y1 = H := rfl
      have e3 : (⟨W, H, 0, 0, 0, 0⟩ : MergeAcc).x2 = 0 := rfl
      have e4 : (⟨W, H, 0, 0, 0, 0⟩ : MergeAcc).y2 = 0 := rfl
      rw [e1] at ax1
      rw [e2] at ay1
      rw [e3] at ax2
      rw [e4] at ay2
      have hqne : qualifying stats ≠ [] := by
        intro h
        apply hz
        rw [hc, h]
        rfl
      obtain ⟨s0, hs0⟩ := List.exists_mem_of_ne_nil _ hqne
      have hs0in : inImage W H s0 := hin s0 (List.mem_of_mem_filter hs0)
      constructor
      · constructor
        · intro h
          simp at h
        · intro hall
          exfalso
          have h20 : 20 ≤ s0.area := by
            simpa using (List.mem_filter.mp hs0).2
          exact absurd (hall s0 (List.mem_of_mem_filter hs0)) (by omega)
      · intro roi h
        rw [Option.some.injEq] at h
        subst h
        refine ⟨rfl, ?_, ?_⟩
        · intro s hs
          obtain ⟨m1, m2, m3, m4⟩ := hmem s hs
          simp only [Box.containsBox, statBox, roiBox]
          exact ⟨m1, m2, by omega, by omega⟩
        · intro b hb
          obtain ⟨him1, him2, him3, him4, him5, him6⟩ := hs0in
          obtain ⟨hm1, hm2, hm3, hm4⟩ := hmem s0 hs0
          simp only [Box.containsBox, roiBox]
          refine ⟨?_, ?_, ?_, ?_⟩
          · rcases ax1 with hW | ⟨s, hs, he⟩
            · omega
            · have hbs := hb s hs
              simp only [Box.containsBox, statBox] at hbs
              omega
          · rcases ay1 with hH | ⟨s, hs, he⟩
            · omega
            · have hbs := hb s hs
              simp only [Box.containsBox, statBox] at hbs
              omega
          · rcases ax2 with h0 | ⟨s, hs, he⟩
            · omega
            · have hbs := hb s hs
              simp only [Box.containsBox, statBox] at hbs
              omega
          · rcases ay2 with h0 | ⟨s, hs, he⟩
            · omega
            · have hbs := hb s hs
              simp only [Box.containsBox, statBox] at hbs
              omega

/-- Witness for the amended C7 at one in-image stat row. -/
theorem detect_at_point_merge_all_spec_witness :
    (∀ s ∈ [(⟨2, 3, 4, 5, 25⟩ : CCStat)], inImage 100 100 s) ∧
    ((detect_at_point_merge_all 100 100 [⟨2, 3, 4, 5, 25⟩] = none ↔
        ∀ s ∈ [(⟨2, 3, 4, 5, 25⟩ : CCStat)], s.area < 20) ∧
     (∀ roi, detect_at_point_merge_all 100 100 [⟨2, 3, 4, 5, 25⟩] = some roi →
       roi.area = roi.width * roi.height ∧
       (∀ s ∈ qualifying [⟨2, 3, 4, 5, 25⟩],
         (roiBox roi).containsBox (statBox s)) ∧
       (∀ b : Box, (∀ s ∈ qualifying [⟨2, 3, 4, 5, 25⟩],
           b.containsBox (statBox s)) →
         b.containsBox (roiBox roi)))) :=
  ⟨by decide, detect_at_point_merge_all_spec 100 100 _ (by decide)⟩

/-! ## ROICollection selection invariant: C10 -/

/-- `add` appends exactly one ROI and keeps the selection. -/
theorem add_length (c : ROICollection) (r : ROI) :
    (c.add r).1.rois.length = c.rois.length + 1 ∧
    (c.add r).1.selected_index = c.selected_index := by
  unfold ROICollection.add
  split <;> simp

/-- In-range `remove` rewrites to the explicit record update. -/
theorem remove_in_range (c : ROICollection) (i : Int)
    (h : 0 ≤ i ∧ i < c.rois.length) :
    c.remove i =
      ({ c with
          rois := c.rois.eraseIdx i.toNat,
          selected_index :=
            if c.selected_index = i then -1
            else if i < c.selected_index then c.selected_index - 1
            else c.selected_index }, true) := by
  unfold ROICollection.remove
  rw [if_pos h]

/-- Out-of-range `remove` is the identity. -/
theorem remove_out_of_range (c : ROICollection) (i : Int)
    (h : ¬(0 ≤ i ∧ i < c.rois.length)) : c.remove i = (c, false) := by
  unfold ROICollection.remove
  rw [if_neg h]

/-- C10: every collection operation preserves the invariant that
`selected_index` is `-1` or a valid index, and `remove i` preserves which
ROI is selected: the selected index is cleared when it is the removed one,
decremented when greater than `i`, and kept when smaller. -/
theorem roi_collection_selection_invariant (c : ROICollection) (r : ROI) (i : Int)
    (p : Int × Int) (hc : selInv c) :
    selInv (c.add r).1 ∧ selInv (c.remove i).1 ∧ selInv (c.select i) ∧
    selInv (c.select_by_point p).1 ∧ selInv c.copy_selected.1 ∧ selInv c.clear ∧
    (0 ≤ i ∧ i < c.rois.length →
      (c.selected_index = i → (c.remove i).1.selected_index = -1) ∧
      (i < c.selected_index → (c.remove i).1.selected_index = c.selected_index - 1) ∧
      (c.selected_index < i → (c.remove i).1.selected_index = c.selected_index)) := by
  have hlen_erase : ∀ (h : 0 ≤ i ∧ i < c.rois.length),
      (c.rois.eraseIdx i.toNat).length = c.rois.length - 1 := by
    intro h
    rw [List.length_eraseIdx]
    have : i.toNat < c.rois.length := by omega
    simp [this]
  refine ⟨?_, ?_, ?_, ?_, ?_, ?_, ?_⟩
  · obtain ⟨hl, hs⟩ := add_length c r
    unfold selInv at hc ⊢
    rw [hl, hs]
    rcases hc with h | h
    · exact Or.inl h
    · right
      constructor
      · exact h.1
      · push_cast
        omega
  · by_cases hcond : 0 ≤ i ∧ i < c.rois.length
    · rw [remove_in_range c i hcond]
      unfold selInv at hc ⊢
      simp only
      rw [hlen_erase hcond]
      split_ifs with h1 h2
      · exact Or.inl rfl
      · right
        rcases hc with h | h
        · omega
        · constructor <;> omega
      · rcases hc with h | h
        · exact Or.inl h
        · right
          constructor <;> omega
    · rw [remove_out_of_range c i hcond]
      exact hc
  · unfold ROICollection.select selInv
    split_ifs with h
    · simp only
      exact Or.inr h
    · exact Or.inl rfl
  · unfold ROICollection.select_by_point
    cases hf : c.rois.findIdx? (fun r => r.containsPt p) with
    | none =>
      unfold selInv
      exact Or.inl rfl
    | some k =>
      have hk : k < c.rois.length :=
        (List.findIdx?_eq_some_iff_findIdx_eq.mp hf).1
      unfold selInv
      simp only
      right
      constructor
      · exact Int.ofNat_nonneg k
      · exact_mod_cast hk
  · unfold ROICollection.copy_selected
    cases hg : c.get_selected with
    | none => exact hc
    | some roi =>
      obtain ⟨hl, _⟩ := add_length c (roi.copy.translate 20 20)
      unfold selInv
      simp only
      right
      rw [hl]
      constructor <;> push_cast <;> omega
  · unfold ROICollection.clear selInv
    exact Or.inl rfl
  · intro hcond
    rw [remove_in_range c i hcond]
    simp only
    refine ⟨?_, ?_, ?_⟩
    · intro h
      rw [if_pos h]
    · intro h
      rw [if_neg (by omega), if_pos h]
    · intro h
      rw [if_neg (by omega), if_neg (by omega)]

/-- Witness for C10 on a one-ROI collection with index 0 selected. -/
theorem roi_collection_selection_invariant_witness :
    selInv ⟨[{ x := 0, y := 0, width := 5, height := 5, name := "a" }], 0, 1⟩ ∧
    (selInv ((⟨[{ x := 0, y := 0, width := 5, height := 5, name := "a" }], 0, 1⟩ :
        ROICollection).add {}).1 ∧
     selInv ((⟨[{ x := 0, y := 0, width := 5, height := 5, name := "a" }], 0, 1⟩ :
        ROICollection).remove 0).1 ∧
     selInv ((⟨[{ x := 0, y := 0, width := 5, height := 5, name := "a" }], 0, 1⟩ :
        ROICollection).select 0) ∧
     selInv ((⟨[{ x := 0, y := 0, width := 5, height := 5, name := "a" }], 0, 1⟩ :
        ROICollection).select_by_point (9, 9)).1 ∧
     selInv (⟨[{ x := 0, y := 0, width := 5, height := 5, name := "a" }], 0, 1⟩ :
        ROICollection).copy_selected.1 ∧
     selInv (⟨[{ x := 0, y := 0, width := 5, height := 5, name := "a" }], 0, 1⟩ :
        ROICollection).clear ∧
     (0 ≤ (0 : Int) ∧ (0 : Int) <
         (⟨[{ x := 0, y := 0, width := 5, height := 5, name := "a" }], 0, 1⟩ :
           ROICollection).rois.length →
       ((⟨[{ x := 0, y := 0, width := 5, height := 5, name := "a" }], 0, 1⟩ :
           ROICollection).selected_index = 0 →
         ((⟨[{ x := 0, y := 0, width := 5, height := 5, name := "a" }], 0, 1⟩ :
            ROICollection).remove 0).1.selected_index = -1) ∧
       (0 < (⟨[{ x := 0, y := 0, width := 5, height := 5, name := "a" }], 0, 1⟩ :
           ROICollection).selected_index →
         ((⟨[{ x := 0, y := 0, width := 5, height := 5, name := "a" }], 0, 1⟩ :
            ROICollection).remove 0).1.selected_index =
           (⟨[{ x := 0, y := 0, width := 5, height := 5, name := "a" }], 0, 1⟩ :
             ROICollection).selected_index - 1) ∧
       ((⟨[{ x := 0, y := 0, width := 5, height := 5, name := "a" }], 0, 1⟩ :
           ROICollection).selected_index < 0 →
         ((⟨[{ x := 0, y := 0, width := 5, height := 5, name := "a" }], 0, 1⟩ :
            ROICollection).remove 0).1.selected_index =
           (⟨[{ x := 0, y := 0, width := 5, height := 5, name := "a" }], 0, 1⟩ :
             ROICollection).selected_index))) :=
  ⟨by decide,
   roi_collection_selection_invariant _ {} 0 (9, 9) (by decide)⟩

/-! ## SuperpixelSegmenter.merge_regions: C6 -/

/-- Membership in an insertion step. -/
theorem mem_insertSorted (p x : Pixel) (l : List Pixel) :
    x ∈ insertSorted p l ↔ x = p ∨ x ∈ l := by
  induction l with
  | nil => simp [insertSorted]
  | cons q rest ih =>
    simp only [insertSorted]
    split
    · simp only [List.mem_cons]
    · simp only [List.mem_cons, ih]
      tauto

/-- The canonical enumeration keeps exactly the members. -/
theorem mem_sortPix (l : List Pixel) (x : Pixel) : x ∈ sortPix l ↔ x ∈ l := by
  unfold sortPix
  induction l with
  | nil => simp
  | cons p rest ih => simp [mem_insertSorted, ih]

/-- Growth keeps the current set. -/
theorem mem_grow_self (mask s : List Pixel) (x : Pixel) (hx : x ∈ s) :
    x ∈ grow mask s := by
  unfold grow
  rw [List.mem_dedup]
  exact List.mem_append.mpr (Or.inl hx)

/-- Growth only adds mask pixels. -/
theorem grow_subset (mask s : List Pixel) (x : Pixel) (hx : x ∈ grow mask s) :
    x ∈ s ∨ x ∈ mask := by
  unfold grow at hx
  rw [List.mem_dedup] at hx
  rcases List.mem_append.mp hx with h | h
  · exact Or.inl h
  · exact Or.inr (List.mem_of_mem_filter h)

/-- The seed stays in the grown set. -/
theorem mem_iterate_grow (mask : List Pixel) (p : Pixel) (n : ℕ) :
    p ∈ (grow mask)^[n] [p] := by
  induction n with
  | zero => simp
  | succ n ih =>
    rw [Function.iterate_succ_apply']
    exact mem_grow_self _ _ _ ih

/-- The grown set contains only the seed and mask pixels. -/
theorem iterate_grow_subset (mask : List Pixel) (p : Pixel) (n : ℕ) :
    ∀ x ∈ (grow mask)^[n] [p], x = p ∨ x ∈ mask := by
  induction n with
  | zero =>
    intro x hx
    rw [Function.iterate_zero_apply, List.mem_singleton] at hx
    exact Or.inl hx
  | succ n ih =>
    intro x hx
    rw [Function.iterate_succ_apply'] at hx
    rcases grow_subset _ _ _ hx with h | h
    · exact ih x h
    · exact Or.inr h

/-- Every pixel belongs to its own component. -/
theorem component_mem_self (mask : List Pixel) (p : Pixel) :
    p ∈ component mask p := by
  unfold component
  rw [mem_sortPix]
  exact mem_iterate_grow mask p _

/-- A mask pixel's component stays inside the mask. -/
theorem component_subset (mask : List Pixel) (p : Pixel) (hp : p ∈ mask) :
    ∀ x ∈ component mask p, x ∈ mask := by
  intro x hx
  unfold component at hx
  rw [mem_sortPix] at hx
  rcases iterate_grow_subset mask p _ x hx with h | h
  · rw [h]; exact hp
  · exact h

/-- The OR of the member masks holds exactly the members' pixels. -/
theorem mem_merged_mask (regions : List SPRegion) (x : Pixel) :
    x ∈ merged_mask regions ↔ ∃ r ∈ regions, x ∈ r.mask := by
  unfold merged_mask
  suffices h : ∀ acc : List Pixel,
      (x ∈ List.foldl (fun m r => m ++ r.mask) acc regions ↔
        x ∈ acc ∨ ∃ r ∈ regions, x ∈ r.mask) by
    simpa using h []
  induction regions with
  | nil => intro acc; simp
  | cons r rs ih =>
    intro acc
    simp only [List.foldl_cons]
    rw [ih (acc ++ r.mask)]
    simp only [List.mem_append, List.mem_cons]
    constructor
    · rintro (⟨h | h⟩ | ⟨r', hr', hx⟩)
      · exact Or.inl h
      · exact Or.inr ⟨r, Or.inl rfl, h⟩
      · exact Or.inr ⟨r', Or.inr hr', hx⟩
    · rintro (h | ⟨r', hr' | hr', hx⟩)
      · exact Or.inl (Or.inl h)
      · subst hr'; exact Or.inl (Or.inr hx)
      · exact Or.inr ⟨r', hr', hx⟩

/-- When `find_contours` yields a single contour, that contour is the
whole mask. -/
theorem find_contours_single (M : List Pixel) (c : List Pixel)
    (hc : find_contours M = [c]) :
    (∀ x ∈ M, x ∈ c) ∧ (∀ x ∈ c, x ∈ M) := by
  constructor
  · intro x hx
    have hmem : component M x ∈ find_contours M := by
      unfold find_contours
      rw [List.mem_dedup]
      exact List.mem_map_of_mem _ hx
    rw [hc, List.mem_singleton] at hmem
    rw [← hmem]
    exact component_mem_self M x
  · intro x hx
    have hcm : c ∈ find_contours M := by
      rw [hc]
      exact List.mem_singleton_self c
    unfold find_contours at hcm
    rw [List.mem_dedup] at hcm
    obtain ⟨p0, hp0, he⟩ := List.mem_map.mp hcm
    rw [← he] at hx
    exact component_subset M p0 hp0 x hx

/-- Facts about a left fold with `min` over a key: it is below the seed,
below every member's key, and attained by the seed or a member. -/
theorem foldl_min_facts {α : Type} (g : α → Int) (l : List α) :
    ∀ a : Int, (l.foldl (fun m q => min m (g q)) a ≤ a) ∧
      (∀ x ∈ l, l.foldl (fun m q => min m (g q)) a ≤ g x) ∧
      (l.foldl (fun m q => min m (g q)) a = a ∨
        ∃ x ∈ l, l.foldl (fun m q => min m (g q)) a = g x) := by
  induction l with
  | nil => intro a; exact ⟨le_refl a, by simp, Or.inl rfl⟩
  | cons p rest ih =>
    intro a
    simp only [List.foldl_cons]
    obtain ⟨h1, h2, h3⟩ := ih (min a (g p))
    refine ⟨le_trans h1 (min_le_left _ _), ?_, ?_⟩
    · intro x hx
      rcases List.mem_cons.mp hx with h | h
      · subst h; exact le_trans h1 (min_le_right _ _)
      · exact h2 x h
    · rcases h3 with h | ⟨x, hx, he⟩
      · rcases min_choice a (g p) with hm | hm
        · exact Or.inl (h.trans hm)
        · exact Or.inr ⟨p, List.mem_cons_self _ _, h.trans hm⟩
      · exact Or.inr ⟨x, List.mem_cons_of_mem _ hx, he⟩

/-- Dual facts for a left fold with `max`. -/
theorem foldl_max_facts {α : Type} (g : α → Int) (l : List α) :
    ∀ a : Int, (a ≤ l.foldl (fun m q => max m (g q)) a) ∧
      (∀ x ∈ l, g x ≤ l.foldl (fun m q => max m (g q)) a) ∧
      (l.foldl (fun m q => max m (g q)) a = a ∨
        ∃ x ∈ l, l.foldl (fun m q => max m (g q)) a = g x) := by
  induction l with
  | nil => intro a; exact ⟨le_refl a, by simp, Or.inl rfl⟩
  | cons p rest ih =>
    intro a
    simp only [List.foldl_cons]
    obtain ⟨h1, h2, h3⟩ := ih (max a (g p))
    refine ⟨le_trans (le_max_left _ _) h1, ?_, ?_⟩
    · intro x hx
      rcases List.mem_cons.mp hx with h | h
      · subst h; exact le_trans (le_max_right _ _) h1
      · exact h2 x h
    · rcases h3 with h | ⟨x, hx, he⟩
      · rcases max_choice a (g p) with hm | hm
        · exact Or.inl (h.trans hm)
        · exact Or.inr ⟨p, List.mem_cons_self _ _, h.trans hm⟩
      · exact Or.inr ⟨x, List.mem_cons_of_mem _ hx, he⟩

/-- `boundingRect` encloses every member pixel. -/
theorem boundingRect_bounds (s : List Pixel) (q : Pixel) (hq : q ∈ s) :
    (boundingRect s).x ≤ q.1 ∧ (boundingRect s).y ≤ q.2 ∧
    q.1 + 1 ≤ (boundingRect s).x + (boundingRect s).w ∧
    q.2 + 1 ≤ (boundingRect s).y + (boundingRect s).h := by
  cases s with
  | nil => simp at hq
  | cons p rest =>
    simp only [boundingRect]
    have hn : ∀ x ∈ p :: rest, rest.foldl (fun m q => min m q.1) p.1 ≤ x.1 := by
      intro x hx
      rcases List.mem_cons.mp hx with h | h
      · rw [h]; exact (foldl_min_facts Prod.fst rest p.1).1
      · exact (foldl_min_facts Prod.fst rest p.1).2.1 x h
    have hm : ∀ x ∈ p :: rest, rest.foldl (fun m q => min m q.2) p.2 ≤ x.2 := by
      intro x hx
      rcases List.mem_cons.mp hx with h | h
      · rw [h]; exact (foldl_min_facts Prod.snd rest p.2).1
      · exact (foldl_min_facts Prod.snd rest p.2).2.1 x h
    have hu : ∀ x ∈ p :: rest, x.1 ≤ rest.foldl (fun m q => max m q.1) p.1 := by
      intro x hx
      rcases List.mem_cons.mp hx with h | h
      · rw [h]; exact (foldl_max_facts Prod.fst rest p.1).1
      · exact (foldl_max_facts Prod.fst rest p.1).2.1 x h
    have hv : ∀ x ∈ p :: rest, x.2 ≤ rest.foldl (fun m q => max m q.2) p.2 := by
      intro x hx
      rcases List.mem_cons.mp hx with h | h
      · rw [h]; exact (foldl_max_facts Prod.snd rest p.2).1
      · exact (foldl_max_facts Prod.snd rest p.2).2.1 x h
    have h1 := hn q hq
    have h2 := hm q hq
    have h3 := hu q hq
    have h4 := hv q hq
    exact ⟨h1, h2, by omega, by omega⟩

/-- Each side of `boundingRect` is attained by a member pixel. -/
theorem boundingRect_attained (s : List Pixel) (hne : s ≠ []) :
    (∃ q ∈ s, (boundingRect s).x = q.1) ∧
    (∃ q ∈ s, (boundingRect s).y = q.2) ∧
    (∃ q ∈ s, (boundingRect s).x + (boundingRect s).w = q.1 + 1) ∧
    (∃ q ∈ s, (boundingRect s).y + (boundingRect s).h = q.2 + 1) := by
  cases s with
  | nil => exact absurd rfl hne
  | cons p rest =>
    simp only [boundingRect]
    have n3 : rest.foldl (fun m q => min m q.1) p.1 = p.1 ∨
        ∃ x ∈ rest, rest.foldl (fun m q => min m q.1) p.1 = x.1 :=
      (foldl_min_facts Prod.fst rest p.1).2.2
    have m3 : rest.foldl (fun m q => min m q.2) p.2 = p.2 ∨
        ∃ x ∈ rest, rest.foldl (fun m q => min m q.2) p.2 = x.2 :=
      (foldl_min_facts Prod.snd rest p.2).2.2
    have u3 : rest.foldl (fun m q => max m q.1) p.1 = p.1 ∨
        ∃ x ∈ rest, rest.foldl (fun m q => max m q.1) p.1 = x.1 :=
      (foldl_max_facts Prod.fst rest p.1).2.2
    have v3 : rest.foldl (fun m q => max m q.2) p.2 = p.2 ∨
        ∃ x ∈ rest, rest.foldl (fun m q => max m q.2) p.2 = x.2 :=
      (foldl_max_facts Prod.snd rest p.2).2.2
    refine ⟨?_, ?_, ?_, ?_⟩
    · rcases n3 with h | ⟨x, hx, he⟩
      · exact ⟨p, List.mem_cons_self _ _, by omega⟩
      · exact ⟨x, List.mem_cons_of_mem _ hx, by omega⟩
    · rcases m3 with h | ⟨x, hx, he⟩
      · exact ⟨p, List.mem_cons_self _ _, by omega⟩
      · exact ⟨x, List.mem_cons_of_mem _ hx, by omega⟩
    · rcases u3 with h | ⟨x, hx, he⟩
      · exact ⟨p, List.mem_cons_self _ _, by omega⟩
      · exact ⟨x, List.mem_cons_of_mem _ hx, by omega⟩
    · rcases v3 with h | ⟨x, hx, he⟩
      · exact ⟨p, List.mem_cons_self _ _, by omega⟩
      · exact ⟨x, List.mem_cons_of_mem _ hx, by omega⟩

/-- `boundingRect` is monotone with respect to pixel-set inclusion. -/
theorem boundingRect_mono (sub sup : List Pixel) (hne : sub ≠ [])
    (hsub : ∀ x ∈ sub, x ∈ sup) :
    (boundingRect sup).containsBox (boundingRect sub) := by
  obtain ⟨⟨q1, hq1, e1⟩, ⟨q2, hq2, e2⟩, ⟨q3, hq3, e3⟩, ⟨q4, hq4, e4⟩⟩ :=
    boundingRect_attained sub hne
  obtain ⟨b11, b12, b13, b14⟩ := boundingRect_bounds sup q1 (hsub _ hq1)
  obtain ⟨b21, b22, b23, b24⟩ := boundingRect_bounds sup q2 (hsub _ hq2)
  obtain ⟨b31, b32, b33, b34⟩ := boundingRect_bounds sup q3 (hsub _ hq3)
  obtain ⟨b41, b42, b43, b44⟩ := boundingRect_bounds sup q4 (hsub _ hq4)
  exact ⟨by omega, by omega, by omega, by omega⟩

/-- Box containment is transitive. -/
theorem containsBox_trans {a b c : Box} (h1 : a.containsBox b)
    (h2 : b.containsBox c) : a.containsBox c := by
  unfold Box.containsBox at *
  omega

/-- C6 counterexample: merging two well-formed but non-adjacent
superpixels (a single pixel at the origin and a 3×3 block at `(2, 2)`)
returns the bbox of the largest contour only, `(2, 2, 3, 3)`, which does
not contain the first region's bbox `(0, 0, 1, 1)`. -/
theorem merge_regions_not_containing_union :
    merge_regions
        [⟨1, [(0, 0)], ⟨0, 0, 1, 1⟩⟩,
         ⟨2, [(2, 2), (3, 2), (4, 2), (2, 3), (3, 3), (4, 3),
              (2, 4), (3, 4), (4, 4)], ⟨2, 2, 3, 3⟩⟩] =
      some { x := 2, y := 2, width := 3, height := 3,
             name := "superpixel_merge_2" } ∧
    ¬(roiBox { x := 2, y := 2, width := 3, height := 3,
               name := "superpixel_merge_2" }).containsBox ⟨0, 0, 1, 1⟩ :=
  ⟨by decide, by decide⟩

/-- C6 amended: if the union of the member masks forms a single external
contour (is 8-connected) and each region's bbox lies within its own
mask's bounding box (as `_extract_regions` guarantees), then the merged
ROI's bbox contains the union of all input regions' bboxes; with several
contours only the largest one's bbox is kept. -/
theorem merge_regions_contains_all (regions : List SPRegion)
    (hne : regions ≠ [])
    (hwf : ∀ r ∈ regions, r.mask ≠ [] ∧
      (boundingRect r.mask).containsBox r.bbox)
    (hone : (find_contours (merged_mask regions)).length = 1) :
    ∃ roi, merge_regions regions = some roi ∧
      ∀ r ∈ regions, (roiBox roi).containsBox r.bbox := by
  rcases hr : regions with _ | ⟨r1, rest0⟩
  · exact absurd hr hne
  rcases rest0 with _ | ⟨r2, rest⟩
  · refine ⟨_, rfl, ?_⟩
    intro r' hr'
    rw [List.mem_singleton] at hr'
    subst hr'
    exact ⟨le_refl _, le_refl _, le_refl _, le_refl _⟩
  · subst hr
    obtain ⟨c, hc⟩ := List.length_eq_one.mp hone
    have hcm := find_contours_single _ c hc
    have hm : merge_regions (r1 :: r2 :: rest) =
        some { x := (boundingRect c).x, y := (boundingRect c).y,
               width := (boundingRect c).w, height := (boundingRect c).h,
               name := "superpixel_merge_" ++ toString (r1 :: r2 :: rest).length } := by
      unfold merge_regions
      rw [hc]
      rfl
    refine ⟨_, hm, ?_⟩
    intro r hrm
    obtain ⟨hrne, hrbb⟩ := hwf r hrm
    have hsub : ∀ x ∈ r.mask, x ∈ c := by
      intro x hx
      apply hcm.1
      rw [mem_merged_mask]
      exact ⟨r, hrm, hx⟩
    exact containsBox_trans (boundingRect_mono r.mask c hrne hsub) hrbb

/-- Witness for the amended C6 on two adjacent one-pixel superpixels. -/
theorem merge_regions_contains_all_witness :
    (([⟨1, [(0, 0)], ⟨0, 0, 1, 1⟩⟩, ⟨2, [(1, 0)], ⟨1, 0, 1, 1⟩⟩] :
        List SPRegion) ≠ [] ∧
     (∀ r ∈ ([⟨1, [(0, 0)], ⟨0, 0, 1, 1⟩⟩, ⟨2, [(1, 0)], ⟨1, 0, 1, 1⟩⟩] :
        List SPRegion), r.mask ≠ [] ∧
        (boundingRect r.mask).containsBox r.bbox) ∧
     (find_contours (merged_mask
        [⟨1, [(0, 0)], ⟨0, 0, 1, 1⟩⟩, ⟨2, [(1, 0)], ⟨1, 0, 1, 1⟩⟩])).length = 1) ∧
    ∃ roi, merge_regions
        [⟨1, [(0, 0)], ⟨0, 0, 1, 1⟩⟩, ⟨2, [(1, 0)], ⟨1, 0, 1, 1⟩⟩] = some roi ∧
      ∀ r ∈ ([⟨1, [(0, 0)], ⟨0, 0, 1, 1⟩⟩, ⟨2, [(1, 0)], ⟨1, 0, 1, 1⟩⟩] :
          List SPRegion), (roiBox roi).containsBox r.bbox :=
  ⟨⟨by decide, by decide, by decide⟩,
   merge_regions_contains_all _ (by decide) (by decide) (by decide)⟩

end ROITool
